import Mathlib

/-!
Verification of the section-extraction and indexing pipeline of the
mcp-codebase-analyser repository.

Python strings are modelled as `List Char` (type `Str`).  The regular
expression engine, the embedding provider and the vector store are external
collaborators: they enter the model as oracle inputs (match lists, success
predicates), and every property is proved for all oracle behaviours that the
external library guarantees (for example, a regex match always starts inside
the searched string).
-/

set_option maxHeartbeats 1000000
set_option maxRecDepth 2000

abbrev Str := List Char

/-- Opening curly brace character. -/
def obrace : Char := '\x7b'

/-- Closing curly brace character. -/
def cbrace : Char := '\x7d'

/-- Model of the Python `content.split(chr(10))`: split on every newline,
keeping empty pieces, so the result always has `count newline + 1` entries. -/
def splitLines : Str → List Str
  | [] => [[]]
  | c :: cs =>
    if c = '\n' then [] :: splitLines cs
    else
      match splitLines cs with
      | [] => [[c]]
      | l :: ls => (c :: l) :: ls

/-- Model of the 1-based line number computation
`content[:start_pos].count(newline) + 1` in `CodeParser._extract_with_patterns`. -/
def startLineOf (content : Str) (pos : Nat) : Nat :=
  (content.take pos).count '\n' + 1

/-- Inner character loop of `CodeParser._extract_section_code`: scan one line,
threading the running brace count and the `in_section` flag; `none` means the
loop hit the early return (a closing brace with `in_section` true brought the
count to zero). -/
def scanLine : Str → Int → Bool → Option (Int × Bool)
  | [], n, ins => some (n, ins)
  | c :: cs, n, ins =>
    if c = obrace then scanLine cs (n + 1) true
    else if c = cbrace then
      if ins = true ∧ n - 1 = 0 then none
      else scanLine cs (n - 1) ins
    else scanLine cs n ins

/-- Outer line loop of `CodeParser._extract_section_code`: `i` is the 0-based
index of the current line in the whole file, `acc` is `section_lines`.
Returns `some (section_lines, end_line)` on the early return, `none` when the
window is exhausted without balancing. -/
def extractLoop : List Str → Nat → Int → Bool → List Str → Option (List Str × Nat)
  | [], _, _, _, _ => none
  | l :: ls, i, n, ins, acc =>
    match scanLine l n ins with
    | none => some (acc ++ [l], i + 1)
    | some (n1, ins1) => extractLoop ls (i + 1) n1 ins1 (acc ++ [l])

/-- Window of lines visited by `range(start_line - 1, min(len(lines), start_line + 500))`. -/
def extractWindow (lines : List Str) (start_line : Nat) : List Str :=
  (lines.drop (start_line - 1)).take 501

/-- Model of `CodeParser._extract_section_code`: brace-matching scan from the
match line, capped at 500 lines ahead; on failure the first 50 scanned lines
are returned with `end_line` set accordingly. -/
def extract_section_code (lines : List Str) (start_line : Nat) : Str × Nat :=
  match extractLoop (extractWindow lines start_line) (start_line - 1) 0 false [] with
  | some (acc, end_line) => (List.intercalate ['\n'] acc, end_line)
  | none =>
    let section_lines := extractWindow lines start_line
    let max_lines := min 50 section_lines.length
    (List.intercalate ['\n'] (section_lines.take max_lines), start_line + max_lines - 1)

/-- Specification-side character scan, following the spec wording: the section
ends at the character where the running brace count returns to zero after
having gone positive, i.e. a closing brace seen while the count is exactly 1. -/
def scanLineS : Str → Int → Option Int
  | [], n => some n
  | c :: cs, n =>
    if c = obrace then scanLineS cs (n + 1)
    else if c = cbrace then
      if n = 1 then none else scanLineS cs (n - 1)
    else scanLineS cs n

/-- Specification-side line loop for the extent finder. -/
def specLoop : List Str → Nat → Int → List Str → Option (List Str × Nat)
  | [], _, _, _ => none
  | l :: ls, i, n, acc =>
    match scanLineS l n with
    | none => some (acc ++ [l], i + 1)
    | some n1 => specLoop ls (i + 1) n1 (acc ++ [l])

/-- Specification-side extent finder, written from the spec text: accumulate
lines from the match line (at most 500 lines ahead), end the section on the
line where the brace count returns to zero after having been positive, and on
cap or end of file return the first 50 scanned lines. -/
def braceExtentSpec (lines : List Str) (start_line : Nat) : Str × Nat :=
  match specLoop (extractWindow lines start_line) (start_line - 1) 0 [] with
  | some (acc, end_line) => (List.intercalate ['\n'] acc, end_line)
  | none =>
    let scanned := extractWindow lines start_line
    let max_lines := min 50 scanned.length
    (List.intercalate ['\n'] (scanned.take max_lines), start_line + max_lines - 1)

/-- Truncation marker appended by the parser when a section body is capped. -/
def truncMarker : Str := String.toList "\n... (truncated)"

/-- Model of the body capping done in `CodeParser`: take the first `maxLen`
characters and append the truncation marker when the text was longer. -/
def capCode (maxLen : Nat) (code : Str) : Str :=
  let truncated := code.take maxLen
  if maxLen < code.length then truncated ++ truncMarker else truncated

/-- One regex match as reported by the external `re` library: the rule kind it
was found for, the section name derived from the capture group (or the
synthesized fallback name), and the match start offset. -/
structure PatMatch where
  section_type : Str
  name : Str
  start_pos : Nat
deriving DecidableEq

/-- One extracted code section, mirroring the fields of the Python
`CodeSection` class used by the verified properties. -/
structure CodeSection where
  name : Str
  type : Str
  file_path : Str
  start_line : Nat
  end_line : Nat
  code : Str
deriving DecidableEq

/-- Model of `CodeParser._extract_with_patterns`: the nested pattern loops are
abstracted into the flat list of matches delivered by the regex engine; each
match is turned into a section exactly as in the source (line computation,
extent scan, emptiness test, body cap). -/
def extract_with_patterns (content : Str) (lines : List Str) (relPath : Str)
    (ms : List PatMatch) : List CodeSection :=
  ms.filterMap (fun m =>
    let start_line := startLineOf content m.start_pos
    let r := extract_section_code lines start_line
    if r.1 = [] then none
    else some
      { name := m.name
        type := m.section_type
        file_path := relPath
        start_line := start_line
        end_line := r.2
        code := capCode 5000 r.1 })

/-- Characters stripped by the Python `str.strip()` (ASCII whitespace). -/
def pyIsSpace (c : Char) : Bool :=
  c = ' ' || c = '\t' || c = '\n' || c = '\r' || c = '\x0b' || c = '\x0c'

/-- Model of the Python `str.strip()`. -/
def pyStrip (l : Str) : Str :=
  ((l.dropWhile pyIsSpace).reverse.dropWhile pyIsSpace).reverse

/-- Model of `CodeParser.parse_file` (after a successful read of `content`):
pattern extraction, then the whole-file fallback section when no pattern
produced a section and the stripped content is non-empty. -/
def parse_file (content : Str) (relPath stem : Str) (ms : List PatMatch) :
    List CodeSection :=
  let lines := splitLines content
  let sections := extract_with_patterns content lines relPath ms
  if sections = [] ∧ 0 < (pyStrip content).length then
    [{ name := stem
       type := String.toList "file"
       file_path := relPath
       start_line := 1
       end_line := lines.length
       code := capCode 5000 content }]
  else sections

theorem scanLine_agree : ∀ (cs : Str) (n : Int) (ins : Bool), (ins = false → n ≤ 0) →
    ((scanLine cs n ins = none ↔ scanLineS cs n = none) ∧
     (∀ n1 ins1, scanLine cs n ins = some (n1, ins1) →
       scanLineS cs n = some n1 ∧ (ins1 = false → n1 ≤ 0))) := by
  intro cs
  induction cs with
  | nil =>
    intro n ins hinv
    constructor
    · simp [scanLine, scanLineS]
    · intro n1 ins1 h
      simp [scanLine] at h
      obtain ⟨h1, h2⟩ := h
      subst h1
      subst h2
      exact ⟨by simp [scanLineS], hinv⟩
  | cons c cs ih =>
    intro n ins hinv
    by_cases hc : c = obrace
    · simp only [scanLine, scanLineS, hc, if_pos rfl]
      exact ih (n + 1) true (by simp)
    · by_cases hc2 : c = cbrace
      · by_cases hn : n = 1
        · have hins : ins = true := by
            cases ins
            · exact absurd (hinv rfl) (by omega)
            · rfl
          have hcond : ins = true ∧ n - 1 = 0 := ⟨hins, by omega⟩
          simp only [scanLine, scanLineS, if_neg hc, if_pos hc2, if_pos hcond, if_pos hn]
          simp
        · have hcond : ¬ (ins = true ∧ n - 1 = 0) := by
            rintro ⟨h1, h2⟩
            omega
          simp only [scanLine, scanLineS, if_neg hc, if_pos hc2, if_neg hcond, if_neg hn]
          exact ih (n - 1) ins (fun hf => by have := hinv hf; omega)
      · simp only [scanLine, scanLineS, if_neg hc, if_neg hc2]
        exact ih n ins hinv

theorem loop_agree : ∀ (w : List Str) (i : Nat) (n : Int) (ins : Bool) (acc : List Str),
    (ins = false → n ≤ 0) → extractLoop w i n ins acc = specLoop w i n acc := by
  intro w
  induction w with
  | nil => intro i n ins acc _; rfl
  | cons l ls ih =>
    intro i n ins acc hinv
    have h := scanLine_agree l n ins hinv
    cases hsc : scanLine l n ins with
    | none =>
      have hs : scanLineS l n = none := h.1.mp hsc
      simp [extractLoop, specLoop, hsc, hs]
    | some p =>
      obtain ⟨n1, ins1⟩ := p
      have hs := h.2 n1 ins1 hsc
      simp only [extractLoop, specLoop, hsc, hs.1]
      exact ih (i + 1) n1 ins1 (acc ++ [l]) hs.2

/-- Helper: the code-side extent finder coincides with the spec-side one. -/
theorem extract_eq_spec (lines : List Str) (start_line : Nat) :
    extract_section_code lines start_line = braceExtentSpec lines start_line := by
  unfold extract_section_code braceExtentSpec
  rw [loop_agree _ _ _ _ _ (fun _ => le_refl 0)]

theorem specLoop_bounds : ∀ (w : List Str) (i : Nat) (n : Int) (acc a : List Str) (e : Nat),
    specLoop w i n acc = some (a, e) → i + 1 ≤ e ∧ e ≤ i + w.length := by
  intro w
  induction w with
  | nil => intro i n acc a e h; simp [specLoop] at h
  | cons l ls ih =>
    intro i n acc a e h
    cases hs : scanLineS l n with
    | none =>
      simp [specLoop, hs] at h
      simp only [List.length_cons]
      omega
    | some n1 =>
      simp only [specLoop, hs] at h
      have hb := ih (i + 1) n1 (acc ++ [l]) a e h
      simp only [List.length_cons]
      omega

theorem extractWindow_length (lines : List Str) (s : Nat) :
    (extractWindow lines s).length = min 501 (lines.length - (s - 1)) := by
  simp [extractWindow]

theorem extract_bounds (lines : List Str) (s : Nat) (h1 : 1 ≤ s) (h2 : s ≤ lines.length) :
    s ≤ (extract_section_code lines s).2 ∧ (extract_section_code lines s).2 ≤ lines.length := by
  rw [extract_eq_spec]
  have hw := extractWindow_length lines s
  unfold braceExtentSpec
  cases hloop : specLoop (extractWindow lines s) (s - 1) 0 [] with
  | some p =>
    obtain ⟨a, e⟩ := p
    have hb := specLoop_bounds _ _ _ _ _ _ hloop
    simp only
    omega
  | none =>
    simp only
    omega

theorem extract_le_500 (lines : List Str) (s : Nat) (h1 : 1 ≤ s) :
    (extract_section_code lines s).2 ≤ s + 500 := by
  rw [extract_eq_spec]
  have hw := extractWindow_length lines s
  unfold braceExtentSpec
  cases hloop : specLoop (extractWindow lines s) (s - 1) 0 [] with
  | some p =>
    obtain ⟨a, e⟩ := p
    have hb := specLoop_bounds _ _ _ _ _ _ hloop
    simp only
    omega
  | none =>
    simp only
    omega

theorem splitLines_length (l : Str) : (splitLines l).length = l.count '\n' + 1 := by
  induction l with
  | nil => simp [splitLines]
  | cons c cs ih =>
    by_cases hc : c = '\n'
    · subst hc
      simp [splitLines, List.count_cons, ih]
    · simp only [splitLines, if_neg hc]
      cases hsp : splitLines cs with
      | nil => rw [hsp] at ih; simp at ih
      | cons l0 ls =>
        rw [hsp] at ih
        simp only [List.length_cons] at ih ⊢
        simp [List.count_cons, hc, ih]

theorem splitLines_ne_nil (l : Str) : splitLines l ≠ [] := by
  intro h
  have := splitLines_length l
  rw [h] at this
  simp at this

theorem startLineOf_pos (content : Str) (pos : Nat) : 1 ≤ startLineOf content pos := by
  simp [startLineOf]

theorem startLineOf_le (content : Str) (pos : Nat) :
    startLineOf content pos ≤ (splitLines content).length := by
  rw [splitLines_length]
  have : (content.take pos).count '\n' ≤ content.count '\n' :=
    (List.take_sublist pos content).count_le '\n'
  simp [startLineOf]
  omega

/-- C7: the extent finder of `CodeParser._extract_section_code` follows the
bounded brace-matching algorithm of the spec: it coincides with the
spec-side `braceExtentSpec` (end at the line where the brace count returns to
zero after having been positive; on cap or end of file, first 50 scanned
lines), and it never scans further than 500 lines past the match line. -/
theorem c7_extent_finder (lines : List Str) (start_line : Nat) (h : 1 ≤ start_line) :
    extract_section_code lines start_line = braceExtentSpec lines start_line ∧
    (extract_section_code lines start_line).2 ≤ start_line + 500 :=
  ⟨extract_eq_spec lines start_line, extract_le_500 lines start_line h⟩

def c7lines : List Str := splitLines (String.toList "f() \x7b\nx\n\x7d\nrest")

/-- Witness for C7 at a concrete four-line file. -/
theorem c7_extent_finder_witness :
    extract_section_code c7lines 1 = braceExtentSpec c7lines 1 ∧
    (extract_section_code c7lines 1).2 ≤ 1 + 500 :=
  c7_extent_finder c7lines 1 (by decide)

/-- C3: every section produced by extraction (pattern-matched or whole-file
fallback) has `1 ≤ start_line ≤ end_line ≤ number of lines of the file`;
in particular the 50-line fallback and the brace-balanced end line never
leave the file. -/
theorem c3_line_bounds (content relPath stem : Str) (ms : List PatMatch) :
    ∀ s ∈ parse_file content relPath stem ms,
      1 ≤ s.start_line ∧ s.start_line ≤ s.end_line ∧
      s.end_line ≤ (splitLines content).length := by
  intro s hs
  simp only [parse_file] at hs
  by_cases hcond : extract_with_patterns content (splitLines content) relPath ms = [] ∧
      0 < (pyStrip content).length
  · rw [if_pos hcond] at hs
    rw [List.mem_singleton] at hs
    subst hs
    refine ⟨le_refl 1, ?_, le_refl _⟩
    show (1 : Nat) ≤ (splitLines content).length
    have := splitLines_length content
    omega
  · rw [if_neg hcond] at hs
    simp only [extract_with_patterns, List.mem_filterMap] at hs
    obtain ⟨m, _, hsome⟩ := hs
    by_cases hr : (extract_section_code (splitLines content)
        (startLineOf content m.start_pos)).1 = []
    · rw [if_pos hr] at hsome
      exact absurd hsome (by simp)
    · rw [if_neg hr] at hsome
      have hseq := Option.some.inj hsome
      subst hseq
      have h1 := startLineOf_pos content m.start_pos
      have h2 := startLineOf_le content m.start_pos
      have hb := extract_bounds (splitLines content) (startLineOf content m.start_pos) h1 h2
      exact ⟨h1, hb.1, hb.2⟩

def c3content : Str := String.toList "f() \x7b\nx\n\x7d\nrest"

def c3ms : List PatMatch := [⟨String.toList "function", String.toList "f", 0⟩]

def c3sec : CodeSection :=
  { name := String.toList "f"
    type := String.toList "function"
    file_path := []
    start_line := 1
    end_line := 3
    code := String.toList "f() \x7b\nx\n\x7d" }

/-- Witness for C3 at a concrete pattern-matched section. -/
theorem c3_line_bounds_witness :
    1 ≤ c3sec.start_line ∧ c3sec.start_line ≤ c3sec.end_line ∧
    c3sec.end_line ≤ (splitLines c3content).length :=
  c3_line_bounds c3content [] [] c3ms c3sec (by decide)

/-- C4: when pattern extraction yields nothing and the stripped content is
non-empty, `parse_file` returns exactly one whole-file section of kind
`file`, spanning line 1 to the line count, with the capped content as body;
hence such a file always yields at least one section. -/
theorem c4_whole_file_fallback (content relPath stem : Str) (ms : List PatMatch)
    (hpat : extract_with_patterns content (splitLines content) relPath ms = [])
    (hne : 0 < (pyStrip content).length) :
    parse_file content relPath stem ms =
      [{ name := stem
         type := String.toList "file"
         file_path := relPath
         start_line := 1
         end_line := (splitLines content).length
         code := capCode 5000 content }] ∧
    parse_file content relPath stem ms ≠ [] := by
  have h1 : parse_file content relPath stem ms =
      [{ name := stem
         type := String.toList "file"
         file_path := relPath
         start_line := 1
         end_line := (splitLines content).length
         code := capCode 5000 content }] := by
    simp only [parse_file]
    rw [if_pos ⟨hpat, hne⟩]
  exact ⟨h1, by rw [h1]; simp⟩

def c4content : Str := String.toList "hello"

def c4sec : CodeSection :=
  { name := String.toList "hello"
    type := String.toList "file"
    file_path := []
    start_line := 1
    end_line := 1
    code := String.toList "hello" }

/-- Witness for C4 on a one-line file with no pattern matches. -/
theorem c4_whole_file_fallback_witness :
    parse_file c4content [] (String.toList "hello") [] = [c4sec] ∧
    parse_file c4content [] (String.toList "hello") [] ≠ [] :=
  c4_whole_file_fallback c4content [] (String.toList "hello") [] rfl (by decide)

theorem capCode_spec (code : Str) :
    (capCode 5000 code).length ≤ 5000 + truncMarker.length ∧
    (5000 < (capCode 5000 code).length → truncMarker <:+ capCode 5000 code) := by
  unfold capCode
  by_cases h : 5000 < code.length
  · rw [if_pos h]
    constructor
    · simp only [List.length_append, List.length_take]
      omega
    · intro _
      exact ⟨code.take 5000, rfl⟩
  · rw [if_neg h]
    have hle : (code.take 5000).length ≤ 5000 := by
      simp only [List.length_take]
      omega
    exact ⟨by omega, fun hlen => absurd hlen (by omega)⟩

/-- C9 (amended): the body of every extracted section has length at most the
cap plus the truncation marker (5000 + 16 characters), and whenever the body
is longer than the cap it ends with the truncation marker. -/
theorem c9_body_cap_amended (content relPath stem : Str) (ms : List PatMatch) :
    ∀ s ∈ parse_file content relPath stem ms,
      s.code.length ≤ 5000 + truncMarker.length ∧
      (5000 < s.code.length → truncMarker <:+ s.code) := by
  intro s hs
  simp only [parse_file] at hs
  by_cases hcond : extract_with_patterns content (splitLines content) relPath ms = [] ∧
      0 < (pyStrip content).length
  · rw [if_pos hcond] at hs
    rw [List.mem_singleton] at hs
    subst hs
    exact capCode_spec content
  · rw [if_neg hcond] at hs
    simp only [extract_with_patterns, List.mem_filterMap] at hs
    obtain ⟨m, _, hsome⟩ := hs
    by_cases hr : (extract_section_code (splitLines content)
        (startLineOf content m.start_pos)).1 = []
    · rw [if_pos hr] at hsome
      exact absurd hsome (by simp)
    · rw [if_neg hr] at hsome
      have hseq := Option.some.inj hsome
      subst hseq
      exact capCode_spec _

def c9content : Str := List.replicate 5001 'a'

theorem pyStrip_replicate_a (n : Nat) :
    pyStrip (List.replicate n 'a') = List.replicate n 'a' := by
  have hd : ∀ m, List.dropWhile pyIsSpace (List.replicate m 'a') = List.replicate m 'a' := by
    intro m
    cases m with
    | zero => rfl
    | succ k =>
      rw [List.replicate_succ, List.dropWhile_cons]
      rw [show pyIsSpace 'a' = false from rfl]
      simp
  rw [pyStrip, hd, List.reverse_replicate, hd, List.reverse_replicate]

/-- Counterexample for C9 as stated: a 5001-character file produces a single
whole-file section whose body has 5016 characters, which exceeds the
configured maximum of 5000 (the truncation marker is appended on top of the
cap, not inside it). -/
theorem c9_counterexample : ∃ s ∈ parse_file c9content [] [] [], 5000 < s.code.length := by
  have hstrip : pyStrip c9content = c9content := pyStrip_replicate_a 5001
  have hlen5001 : c9content.length = 5001 := List.length_replicate 5001 'a'
  have hne : 0 < (pyStrip c9content).length := by
    rw [hstrip, hlen5001]
    omega
  have hcond : extract_with_patterns c9content (splitLines c9content) [] [] = [] ∧
      0 < (pyStrip c9content).length := ⟨rfl, hne⟩
  have hpf : parse_file c9content [] [] [] =
      [{ name := []
         type := String.toList "file"
         file_path := []
         start_line := 1
         end_line := (splitLines c9content).length
         code := capCode 5000 c9content }] := by
    simp only [parse_file]
    rw [if_pos hcond]
  have hgt : 5000 < c9content.length := by
    rw [hlen5001]
    omega
  have hcap : (capCode 5000 c9content).length = 5016 := by
    simp only [capCode]
    rw [if_pos hgt, List.length_append, List.length_take, hlen5001,
      show truncMarker.length = 16 from rfl]
    omega
  rw [hpf]
  refine ⟨_, List.mem_singleton.mpr rfl, ?_⟩
  simp only [hcap]
  omega

def c9small : Str := String.toList "tiny"

def c9sec : CodeSection :=
  { name := []
    type := String.toList "file"
    file_path := []
    start_line := 1
    end_line := 1
    code := String.toList "tiny" }

/-- Witness for the amended C9 at a concrete small file. -/
theorem c9_body_cap_amended_witness :
    c9sec.code.length ≤ 5000 + truncMarker.length ∧
    (5000 < c9sec.code.length → truncMarker <:+ c9sec.code) :=
  c9_body_cap_amended c9small [] [] [] c9sec (by decide)

/-- Model of the Python `str.lower()`. -/
def pyLower (l : Str) : Str := l.map Char.toLower

/-- Helper for `pySplit`: `cur` is the reversed current word. -/
def pySplitAux (cur : Str) : Str → List Str
  | [] => if cur = [] then [] else [cur.reverse]
  | c :: cs =>
    if pyIsSpace c then
      if cur = [] then pySplitAux [] cs else cur.reverse :: pySplitAux [] cs
    else pySplitAux (c :: cur) cs

/-- Model of the Python `str.split()`: split on whitespace runs, no empty
tokens. -/
def pySplit (l : Str) : List Str := pySplitAux [] l

/-- Word characters of the Python regex class backslash-w (ASCII fragment). -/
def pyIsWordChar (c : Char) : Bool := c.isAlphanum || c = '_'

/-- Model of `re.sub` removing every character that is not a word character,
whitespace or a hyphen, as done on each token of the query. -/
def cleanWord (w : Str) : Str :=
  w.filter (fun c => pyIsWordChar c || pyIsSpace c || c = '-')

/-- Stop-word set of `EmbeddingSystem._preprocess_query`. -/
def stop_words : List Str :=
  [String.toList "a", String.toList "an", String.toList "and", String.toList "are",
   String.toList "as", String.toList "at", String.toList "be", String.toList "by",
   String.toList "for", String.toList "from", String.toList "has", String.toList "he",
   String.toList "in", String.toList "is", String.toList "it", String.toList "its",
   String.toList "of", String.toList "on", String.toList "that", String.toList "the",
   String.toList "to", String.toList "was", String.toList "will", String.toList "with"]

/-- Abbreviation table of `EmbeddingSystem._preprocess_query`. -/
def abbreviations : List (Str × Str) :=
  [(String.toList "auth", String.toList "authentication"),
   (String.toList "config", String.toList "configuration"),
   (String.toList "ctx", String.toList "context"),
   (String.toList "db", String.toList "database"),
   (String.toList "func", String.toList "function"),
   (String.toList "impl", String.toList "implementation"),
   (String.toList "params", String.toList "parameters"),
   (String.toList "props", String.toList "properties"),
   (String.toList "repo", String.toList "repository"),
   (String.toList "res", String.toList "response"),
   (String.toList "req", String.toList "request"),
   (String.toList "util", String.toList "utility"),
   (String.toList "btn", String.toList "button"),
   (String.toList "msg", String.toList "message"),
   (String.toList "init", String.toList "initialize"),
   (String.toList "async", String.toList "asynchronous")]

/-- One iteration of the token loop of `_preprocess_query`, appending to the
`expanded_words` accumulator exactly as the source does. -/
def expandStep (acc : List Str) (w : Str) : List Str :=
  let cw := cleanWord w
  match abbreviations.lookup cw with
  | some exp => acc ++ [cw, exp]
  | none => if cw ∉ stop_words ∨ 3 < cw.length then acc ++ [cw] else acc

/-- Model of `EmbeddingSystem._preprocess_query`: lowercase and strip,
tokenize, expand abbreviations and drop short stop words, join with spaces,
and fall back to the lowered stripped query when the join is empty. -/
def preprocess_query (q : Str) : Str :=
  let q1 := pyStrip (pyLower q)
  let words := pySplit q1
  let expanded_words := words.foldl expandStep []
  let processed := List.intercalate [' '] expanded_words
  if processed = [] then q1 else processed

/-- Specification-side contribution of a single token: an abbreviation
contributes itself and its expansion, a short stop word contributes nothing,
any other token contributes its cleaned form. -/
def expandOne (w : Str) : List Str :=
  let cw := cleanWord w
  match abbreviations.lookup cw with
  | some exp => [cw, exp]
  | none => if cw ∉ stop_words ∨ 3 < cw.length then [cw] else []

/-- Specification-side query preprocessing: token contributions are collected
with `flatMap` over the whitespace tokens of the lowered stripped query. -/
def preprocessSpec (q : Str) : Str :=
  let q1 := pyStrip (pyLower q)
  let joined := List.intercalate [' '] ((pySplit q1).flatMap expandOne)
  if joined = [] then q1 else joined

theorem expandStep_eq (acc : List Str) (w : Str) :
    expandStep acc w = acc ++ expandOne w := by
  simp only [expandStep, expandOne]
  cases habb : (abbreviations.lookup (cleanWord w)) with
  | some exp => rfl
  | none =>
    by_cases hc : cleanWord w ∉ stop_words ∨ 3 < (cleanWord w).length
    · rw [if_pos hc, if_pos hc]
    · rw [if_neg hc, if_neg hc, List.append_nil]

theorem foldl_expandStep (ws : List Str) (acc : List Str) :
    ws.foldl expandStep acc = acc ++ ws.flatMap expandOne := by
  induction ws generalizing acc with
  | nil => simp
  | cons w ws ih =>
    rw [List.foldl_cons, ih, expandStep_eq, List.flatMap_cons, List.append_assoc]

theorem stop_lookup_none : ∀ x ∈ stop_words, abbreviations.lookup x = none := by
  decide

/-- Counterexample for C6 as stated: the input `"The Of"` consists only of
stop words, but `_preprocess_query` returns the lowercased stripped query
`"the of"`, not the original query unchanged. -/
theorem c6_counterexample :
    preprocess_query (String.toList "The Of") ≠ String.toList "The Of" := by
  decide

/-- C6 (amended): query preprocessing lowercases and strips the query,
tokenizes it on whitespace, makes each abbreviation token contribute both
itself and its expansion, drops stop-word tokens of length at most three,
and when every token is dropped it falls back to the lowercased stripped
query (equal to the original query whenever that is already lowercase with
no surrounding whitespace) rather than the empty string. -/
theorem c6_preprocess_amended :
    (∀ q : Str, preprocess_query q = preprocessSpec q) ∧
    preprocess_query (String.toList "auth config") =
      String.toList "auth authentication config configuration" ∧
    (∀ q : Str, (∀ w ∈ pySplit (pyStrip (pyLower q)),
        cleanWord w ∈ stop_words ∧ (cleanWord w).length ≤ 3) →
      preprocess_query q = pyStrip (pyLower q)) := by
  refine ⟨?_, by decide, ?_⟩
  · intro q
    simp only [preprocess_query, preprocessSpec, foldl_expandStep, List.nil_append]
  · intro q hq
    have hflat : (pySplit (pyStrip (pyLower q))).flatMap expandOne = [] := by
      rw [List.flatMap_eq_nil_iff]
      intro w hw
      have hcw := hq w hw
      have hlook : abbreviations.lookup (cleanWord w) = none :=
        stop_lookup_none (cleanWord w) hcw.1
      simp only [expandOne, hlook]
      rw [if_neg]
      push_neg
      exact ⟨hcw.1, by omega⟩
    simp only [preprocess_query, foldl_expandStep, List.nil_append, hflat]
    rfl

/-- Witness for the amended C6: a stop-word-only input falls back to the
lowercased stripped query. -/
theorem c6_preprocess_amended_witness :
    preprocess_query (String.toList "the of") = pyStrip (pyLower (String.toList "the of")) :=
  c6_preprocess_amended.2.2 (String.toList "the of") (by decide)

/-- One code-section dictionary as consumed by
`EmbeddingSystem.index_code_sections` (the `to_dict` shape produced by the
parser): `pattern_type` models `metadata["pattern_type"]` and `context` the
optional precomputed context string. -/
structure SectionDict where
  name : Str
  type : Str
  file_path : Str
  start_line : Nat
  end_line : Nat
  code : Str
  pattern_type : Str
  context : Str
deriving DecidableEq

/-- Decimal rendering of a natural number, as Python string formatting does. -/
def natStr (n : Nat) : Str := (toString n).toList

/-- Model of the string
`f"{code_content}{pattern_type}{start_line}{end_line}"` hashed into the
content hash of a section. -/
def full_id_string (s : SectionDict) : Str :=
  s.code ++ s.pattern_type ++ natStr s.start_line ++ natStr s.end_line

/-- The truncated content hash `hashlib.md5(...).hexdigest()[:12]`; the md5
hex digest itself is the oracle parameter `md5`. -/
def code_hash (md5 : Str → Str) (s : SectionDict) : Str :=
  (md5 (full_id_string s)).take 12

/-- Separator `::` of `_generate_id`. -/
def sep2 : Str := String.toList "::"

/-- The concatenation hashed by `EmbeddingSystem._generate_id`. -/
def unique_string (repo file_path name : Str) (start_line end_line : Nat)
    (chash : Str) : Str :=
  repo ++ sep2 ++ file_path ++ sep2 ++ name ++ sep2 ++ natStr start_line ++
    sep2 ++ natStr end_line ++ sep2 ++ chash

/-- Model of `EmbeddingSystem._generate_id`. -/
def generate_id (md5 : Str → Str) (repo file_path name : Str)
    (start_line end_line : Nat) (chash : Str) : Str :=
  md5 (unique_string repo file_path name start_line end_line chash)

/-- The id computed for one section inside `index_code_sections`. -/
def section_id (md5 : Str → Str) (repo : Str) (s : SectionDict) : Str :=
  generate_id md5 repo s.file_path s.name s.start_line s.end_line (code_hash md5 s)

theorem app_cancel (l : Str) : ∀ (a b : Str), l ++ a = l ++ b → a = b := by
  induction l with
  | nil => intro a b h; simpa using h
  | cons c cs ih =>
    intro a b h
    simp only [List.cons_append, List.cons.injEq] at h
    exact ih a b h.2

theorem app_cancel_r (r a b : Str) (h : a ++ r = b ++ r) : a = b := by
  have h2 := congrArg List.reverse h
  simp only [List.reverse_append] at h2
  exact List.reverse_injective (app_cancel _ _ _ h2)

/-- C2: the fingerprint is deterministic (it is a pure function of its
inputs, with no time or run dependence in the model) and rule-sensitive: two
sections identical except for the matched rule kind feed different strings
into the content hash, and hence receive different keys. Because the source
truncates the md5 hex digest, the step from different hash inputs to
different keys needs the md5 oracle to be collision-free on the strings
involved: `hinj` (the full digest is injective) and `hmid` (the two distinct
content-hash inputs keep distinct 12-character digests). -/
theorem c2_fingerprint (md5 : Str → Str) (repo fp nm ty body ctx : Str)
    (sl el : Nat) (pt1 pt2 : Str) (hpt : pt1 ≠ pt2)
    (hinj : Function.Injective md5)
    (hmid : code_hash md5 ⟨nm, ty, fp, sl, el, body, pt1, ctx⟩ ≠
            code_hash md5 ⟨nm, ty, fp, sl, el, body, pt2, ctx⟩) :
    (section_id md5 repo ⟨nm, ty, fp, sl, el, body, pt1, ctx⟩ =
      section_id md5 repo ⟨nm, ty, fp, sl, el, body, pt1, ctx⟩) ∧
    full_id_string ⟨nm, ty, fp, sl, el, body, pt1, ctx⟩ ≠
      full_id_string ⟨nm, ty, fp, sl, el, body, pt2, ctx⟩ ∧
    section_id md5 repo ⟨nm, ty, fp, sl, el, body, pt1, ctx⟩ ≠
      section_id md5 repo ⟨nm, ty, fp, sl, el, body, pt2, ctx⟩ := by
  refine ⟨rfl, ?_, ?_⟩
  · intro hfull
    apply hpt
    simp only [full_id_string, List.append_assoc] at hfull
    exact app_cancel_r _ _ _ (app_cancel _ _ _ hfull)
  · intro hk
    apply hmid
    have h := hinj hk
    simp only [unique_string, List.append_assoc] at h
    exact app_cancel _ _ _ (app_cancel _ _ _ (app_cancel _ _ _ (app_cancel _ _ _
      (app_cancel _ _ _ (app_cancel _ _ _ (app_cancel _ _ _ (app_cancel _ _ _
      (app_cancel _ _ _ (app_cancel _ _ _ h)))))))))

/-- Witness for C2 with the identity function as a collision-free digest. -/
theorem c2_fingerprint_witness :
    (section_id (fun s => s) (String.toList "o/r")
        ⟨String.toList "f", String.toList "t", String.toList "p", 1, 2,
         String.toList "c", String.toList "x", []⟩ =
      section_id (fun s => s) (String.toList "o/r")
        ⟨String.toList "f", String.toList "t", String.toList "p", 1, 2,
         String.toList "c", String.toList "x", []⟩) ∧
    full_id_string ⟨String.toList "f", String.toList "t", String.toList "p", 1, 2,
        String.toList "c", String.toList "x", []⟩ ≠
      full_id_string ⟨String.toList "f", String.toList "t", String.toList "p", 1, 2,
        String.toList "c", String.toList "y", []⟩ ∧
    section_id (fun s => s) (String.toList "o/r")
        ⟨String.toList "f", String.toList "t", String.toList "p", 1, 2,
         String.toList "c", String.toList "x", []⟩ ≠
      section_id (fun s => s) (String.toList "o/r")
        ⟨String.toList "f", String.toList "t", String.toList "p", 1, 2,
         String.toList "c", String.toList "y", []⟩ :=
  c2_fingerprint (fun s => s) (String.toList "o/r") (String.toList "p")
    (String.toList "f") (String.toList "t") (String.toList "c") [] 1 2
    (String.toList "x") (String.toList "y") (by decide) (fun a b h => h) (by decide)

/-- Denormalized metadata stored with each record (the dictionary built at
the `metadata = {...}` step of `index_code_sections`). -/
structure MetaRec where
  repo : Str
  file_path : Str
  name : Str
  type : Str
  start_line : Nat
  end_line : Nat
  pattern_type : Str
deriving DecidableEq

/-- Model of the embedding context construction: the precomputed context is
used when present, otherwise the rich context string is built from the
section fields. -/
def build_context (s : SectionDict) : Str :=
  if s.context = [] then
    String.toList "File: " ++ s.file_path ++ ['\n'] ++
    String.toList "Type: " ++ s.type ++ ['\n'] ++
    String.toList "Name: " ++ s.name ++ ['\n'] ++
    String.toList "Code:" ++ ['\n'] ++ s.code
  else s.context

/-- One entry of `batch_data`: id, embedding context, metadata and the
4000-character document stored for retrieval. -/
structure PrepItem where
  id : Str
  context : Str
  meta : MetaRec
  document : Str
deriving DecidableEq

def prep_meta (repo : Str) (s : SectionDict) : MetaRec :=
  { repo := repo
    file_path := s.file_path
    name := s.name
    type := s.type
    start_line := s.start_line
    end_line := s.end_line
    pattern_type := s.pattern_type }

/-- State threaded through the per-section preparation loop of a batch:
`skipped` is the global skip counter, `seen` is `seen_ids_this_run`,
`batchData` is `batch_data`. -/
structure PrepState where
  skipped : Int
  seen : List Str
  batchData : List PrepItem
deriving DecidableEq

/-- One iteration of the `for section in batch` preparation loop: compute the
id, skip it when already in the store or already seen this run, otherwise
record it as seen and queue id, context, metadata and document. -/
def prep_step (md5 : Str → Str) (repo : Str) (existing : List Str)
    (st : PrepState) (s : SectionDict) : PrepState :=
  let sid := section_id md5 repo s
  if sid ∈ existing ∨ sid ∈ st.seen then
    { st with skipped := st.skipped + 1 }
  else
    { skipped := st.skipped
      seen := st.seen ++ [sid]
      batchData := st.batchData ++
        [{ id := sid
           context := build_context s
           meta := prep_meta repo s
           document := s.code.take 4000 }] }

def prepare_batch (md5 : Str → Str) (repo : Str) (existing : List Str) :
    List SectionDict → PrepState → PrepState
  | [], st => st
  | s :: rest, st => prepare_batch md5 repo existing rest (prep_step md5 repo existing st s)

/-- Full state of one indexing run: the three counters, the `existing_ids`
set, the `seen_ids_this_run` set, the ids actually present in the collection
(`store`), and the number of embedding calls issued so far. -/
structure RunState where
  indexed : Int
  skipped : Int
  errors : Int
  existing : List Str
  seen : List Str
  store : List Str
  embedCalls : Nat
deriving DecidableEq

/-- Items of a batch whose embedding call succeeds; the embedding provider is
the oracle `embedOk` deciding success per context text. -/
def batch_success (embedOk : Str → Bool) (batchData : List PrepItem) : List PrepItem :=
  batchData.filter (fun it => embedOk it.context)

/-- Number of items of a batch whose embedding call fails. -/
def batch_fail_count (embedOk : Str → Bool) (batchData : List PrepItem) : Nat :=
  (batchData.filter (fun it => !embedOk it.context)).length

/-- Model of one iteration of the batch loop of `index_code_sections`:
prepare the batch, short-circuit when nothing was queued, issue one embedding
call per queued item, count successes as indexed (adding their ids to
`existing_ids`), count failures as errors, and finally attempt the store
`add`; when the store call fails the whole batch of ids is counted as
errored and the indexed count is corrected downwards. -/
def process_batch (md5 : Str → Str) (embedOk : Str → Bool) (addOk : List Str → Bool)
    (repo : Str) (st : RunState) (batch : List SectionDict) : RunState :=
  let p := prepare_batch md5 repo st.existing batch
    { skipped := st.skipped, seen := st.seen, batchData := [] }
  if p.batchData = [] then
    { st with skipped := p.skipped, seen := p.seen }
  else
    let ids := (batch_success embedOk p.batchData).map PrepItem.id
    let st1 : RunState :=
      { indexed := st.indexed + ids.length
        skipped := p.skipped
        errors := st.errors + batch_fail_count embedOk p.batchData
        existing := st.existing ++ ids
        seen := p.seen
        store := st.store
        embedCalls := st.embedCalls + p.batchData.length }
    if ids = [] then st1
    else if addOk ids then { st1 with store := st1.store ++ ids }
    else { st1 with indexed := st1.indexed - ids.length, errors := st1.errors + ids.length }

def run_batches (md5 : Str → Str) (embedOk : Str → Bool) (addOk : List Str → Bool)
    (repo : Str) : List (List SectionDict) → RunState → RunState
  | [], st => st
  | b :: bs, st => run_batches md5 embedOk addOk repo bs (process_batch md5 embedOk addOk repo st b)

/-- Initial run state: counters at zero, `existing_ids` loaded from the
collection contents. -/
def init_state (store0 : List Str) : RunState :=
  { indexed := 0
    skipped := 0
    errors := 0
    existing := store0
    seen := []
    store := store0
    embedCalls := 0 }

/-- Model of `range(0, stop, step)` for a positive step. -/
def pyRange0 (stop step : Nat) : List Nat :=
  (List.range ((stop + step - 1) / step)).map (fun i => i * step)

/-- The slices `code_sections[i:i + batch_size]` visited by the batch loop. -/
def batches_of (bs : Nat) (l : List SectionDict) : List (List SectionDict) :=
  (pyRange0 l.length bs).map (fun i => (l.drop i).take bs)

/-- Model of `EmbeddingSystem.index_code_sections`.  A zero batch size makes
the Python `range` raise, so the call does not return normally (`none`); a
negative batch size gives an empty `range`, so the loop body never runs. -/
def index_code_sections (md5 : Str → Str) (embedOk : Str → Bool)
    (addOk : List Str → Bool) (repo : Str) (sections : List SectionDict)
    (batch_size : Int) (store0 : List Str) : Option RunState :=
  if batch_size = 0 then none
  else if batch_size < 0 then some (init_state store0)
  else some (run_batches md5 embedOk addOk repo
    (batches_of batch_size.toNat sections) (init_state store0))

theorem batches_of_nil (bs : Nat) : batches_of bs [] = [] := by
  have h : (bs - 1) / bs = 0 := by
    cases bs with
    | zero => rfl
    | succ k => exact Nat.div_eq_of_lt (by omega)
  simp [batches_of, pyRange0, h]

theorem batches_of_cons (bs : Nat) (hbs : 0 < bs) (l : List SectionDict) (hl : l ≠ []) :
    batches_of bs l = l.take bs :: batches_of bs (l.drop bs) := by
  have hN : 1 ≤ l.length := by
    cases l
    · exact absurd rfl hl
    · simp
  have hk : (l.length + bs - 1) / bs = ((l.drop bs).length + bs - 1) / bs + 1 := by
    rw [List.length_drop]
    have key : l.length + bs - 1 = (l.length - 1) + bs := by omega
    rw [key, Nat.add_div_right _ hbs]
    rcases Nat.lt_or_ge l.length bs with hlt | hge
    · have e0 : l.length - bs = 0 := by omega
      rw [e0]
      have e1 : (l.length - 1) / bs = 0 := Nat.div_eq_of_lt (by omega)
      have e2 : (0 + bs - 1) / bs = 0 := Nat.div_eq_of_lt (by omega)
      rw [e1, e2]
    · have e1 : l.length - bs + bs - 1 = l.length - 1 := by omega
      rw [e1]
  simp only [batches_of, pyRange0]
  rw [hk, List.range_succ_eq_map]
  simp only [List.map_cons, List.map_map]
  congr 1
  · simp
  · apply List.map_congr_left
    intro i _
    simp only [Function.comp_apply]
    show (l.drop ((i + 1) * bs)).take bs = ((l.drop bs).drop (i * bs)).take bs
    rw [List.drop_drop, Nat.succ_mul, Nat.add_comm (i * bs) bs]

theorem batches_sum_length (bs : Nat) (hbs : 0 < bs) (l : List SectionDict) :
    ((batches_of bs l).map List.length).sum = l.length := by
  by_cases hl : l = []
  · subst hl
    rw [batches_of_nil]
    rfl
  · rw [batches_of_cons bs hbs l hl]
    simp only [List.map_cons, List.sum_cons]
    rw [batches_sum_length bs hbs (l.drop bs)]
    rw [List.length_take, List.length_drop]
    omega
termination_by l.length
decreasing_by
  simp only [List.length_drop]
  exact Nat.sub_lt (List.length_pos.mpr hl) hbs

theorem mem_batches (bs : Nat) (hbs : 0 < bs) (l : List SectionDict) (s : SectionDict)
    (hs : s ∈ l) : ∃ b ∈ batches_of bs l, s ∈ b := by
  have hl : l ≠ [] := List.ne_nil_of_mem hs
  rw [batches_of_cons bs hbs l hl]
  have hsplit : s ∈ l.take bs ++ l.drop bs := by
    rw [List.take_append_drop]
    exact hs
  rcases List.mem_append.mp hsplit with hleft | hright
  · exact ⟨l.take bs, by simp, hleft⟩
  · obtain ⟨b, hb, hsb⟩ := mem_batches bs hbs (l.drop bs) s hright
    exact ⟨b, by simp [hb], hsb⟩
termination_by l.length
decreasing_by
  simp only [List.length_drop]
  exact Nat.sub_lt (List.length_pos.mpr hl) hbs

theorem mem_of_mem_batches (bs : Nat) (l : List SectionDict) (b : List SectionDict)
    (hb : b ∈ batches_of bs l) : ∀ s ∈ b, s ∈ l := by
  intro s hs
  simp only [batches_of, pyRange0, List.map_map, List.mem_map] at hb
  obtain ⟨i, _, hbeq⟩ := hb
  rw [← hbeq] at hs
  exact List.drop_subset _ l (List.take_subset _ _ hs)

theorem filter_split_length {α : Type} (p : α → Bool) (l : List α) :
    (l.filter p).length + (l.filter (fun a => !p a)).length = l.length := by
  induction l with
  | nil => rfl
  | cons a t ih =>
    cases h : p a
    · simp [List.filter_cons, h]
      omega
    · simp [List.filter_cons, h]
      omega

theorem prep_step_accounting (md5 : Str → Str) (repo : Str) (existing : List Str)
    (st : PrepState) (s : SectionDict) :
    (prep_step md5 repo existing st s).skipped +
      ((prep_step md5 repo existing st s).batchData.length : Int) =
    st.skipped + (st.batchData.length : Int) + 1 := by
  unfold prep_step
  by_cases h : section_id md5 repo s ∈ existing ∨ section_id md5 repo s ∈ st.seen
  · rw [if_pos h]
    simp only
    ring
  · rw [if_neg h]
    simp only [List.length_append, List.length_cons, List.length_nil]
    push_cast
    ring

theorem prepare_batch_accounting (md5 : Str → Str) (repo : Str) (existing : List Str) :
    ∀ (batch : List SectionDict) (st : PrepState),
    (prepare_batch md5 repo existing batch st).skipped +
      ((prepare_batch md5 repo existing batch st).batchData.length : Int) =
    st.skipped + (st.batchData.length : Int) + (batch.length : Int) := by
  intro batch
  induction batch with
  | nil => intro st; simp [prepare_batch]
  | cons s rest ih =>
    intro st
    simp only [prepare_batch]
    rw [ih (prep_step md5 repo existing st s)]
    rw [prep_step_accounting]
    simp only [List.length_cons]
    push_cast
    ring

theorem process_batch_accounting (md5 : Str → Str) (embedOk : Str → Bool)
    (addOk : List Str → Bool) (repo : Str) (st : RunState) (batch : List SectionDict) :
    (process_batch md5 embedOk addOk repo st batch).indexed +
      (process_batch md5 embedOk addOk repo st batch).skipped +
      (process_batch md5 embedOk addOk repo st batch).errors =
    st.indexed + st.skipped + st.errors + (batch.length : Int) ∧
    (0 ≤ st.indexed → 0 ≤ (process_batch md5 embedOk addOk repo st batch).indexed) := by
  unfold process_batch
  have hprep := prepare_batch_accounting md5 repo st.existing batch
    { skipped := st.skipped, seen := st.seen, batchData := [] }
  simp only [List.length_nil, Nat.cast_zero, add_zero] at hprep
  set p := prepare_batch md5 repo st.existing batch
    { skipped := st.skipped, seen := st.seen, batchData := [] } with hp
  by_cases hbd : p.batchData = []
  · rw [if_pos hbd]
    rw [hbd] at hprep
    simp only [List.length_nil, Nat.cast_zero, add_zero] at hprep
    constructor
    · simp only
      omega
    · intro h
      simpa using h
  · rw [if_neg hbd]
    have hsplit := filter_split_length (fun it => embedOk it.context) p.batchData
    have hsucc : ((batch_success embedOk p.batchData).map PrepItem.id).length =
        (p.batchData.filter (fun it => embedOk it.context)).length := by
      rw [List.length_map]
      rfl
    by_cases hids : (batch_success embedOk p.batchData).map PrepItem.id = []
    · rw [if_pos hids]
      constructor
      · simp only [batch_fail_count]
        have : ((batch_success embedOk p.batchData).map PrepItem.id).length = 0 := by
          rw [hids]
          rfl
        rw [hsucc] at this
        omega
      · intro h
        simp only
        omega
    · rw [if_neg hids]
      by_cases hadd : addOk ((batch_success embedOk p.batchData).map PrepItem.id) = true
      · rw [if_pos hadd]
        constructor
        · simp only [batch_fail_count]
          rw [hsucc]
          omega
        · intro h
          simp only
          omega
      · rw [if_neg hadd]
        constructor
        · simp only [batch_fail_count]
          rw [hsucc]
          omega
        · intro h
          simp only
          omega

theorem run_batches_accounting (md5 : Str → Str) (embedOk : Str → Bool)
    (addOk : List Str → Bool) (repo : Str) :
    ∀ (B : List (List SectionDict)) (st : RunState),
    (run_batches md5 embedOk addOk repo B st).indexed +
      (run_batches md5 embedOk addOk repo B st).skipped +
      (run_batches md5 embedOk addOk repo B st).errors =
    st.indexed + st.skipped + st.errors + ((B.map List.length).sum : Int) ∧
    (0 ≤ st.indexed → 0 ≤ (run_batches md5 embedOk addOk repo B st).indexed) := by
  intro B
  induction B with
  | nil => intro st; simp [run_batches]
  | cons b bs ih =>
    intro st
    simp only [run_batches]
    have hpb := process_batch_accounting md5 embedOk addOk repo st b
    have hih := ih (process_batch md5 embedOk addOk repo st b)
    constructor
    · rw [hih.1]
      simp only [List.map_cons, List.sum_cons]
      push_cast
      omega
    · intro h
      exact hih.2 (hpb.2 h)

def c10sec : SectionDict :=
  { name := String.toList "n"
    type := String.toList "t"
    file_path := String.toList "p"
    start_line := 1
    end_line := 2
    code := String.toList "c"
    pattern_type := String.toList "k"
    context := String.toList "x" }

/-- Counterexample for C10 as stated: a call with a negative batch size
returns normally in Python (the `range` is empty, so no section is visited)
and reports `indexed = skipped = errors = 0` for one input section, so the
three counters do not add up to the total. -/
theorem c10_counterexample :
    ∃ st, index_code_sections (fun _ => String.toList "h") (fun _ => true)
        (fun _ => true) (String.toList "o/r") [c10sec] (-1) [] = some st ∧
      ¬ (st.indexed + st.skipped + st.errors = (1 : Int)) := by
  refine ⟨init_state [], ?_, by decide⟩
  rfl

/-- C10 (amended): for every call of `index_code_sections` with a positive
batch size that returns normally, the counters satisfy
`indexed + skipped + errors = total` (the number of input sections) and
`indexed` is non-negative: every input section is accounted for exactly
once, also when embeddings fail or a whole batch store call fails. -/
theorem c10_count_partition (md5 : Str → Str) (embedOk : Str → Bool)
    (addOk : List Str → Bool) (repo : Str) (sections : List SectionDict)
    (batch_size : Int) (store0 : List Str) (hbs : 0 < batch_size) (st : RunState)
    (hrun : index_code_sections md5 embedOk addOk repo sections batch_size store0 = some st) :
    st.indexed + st.skipped + st.errors = (sections.length : Int) ∧ 0 ≤ st.indexed := by
  unfold index_code_sections at hrun
  rw [if_neg (show ¬ batch_size = 0 by omega)] at hrun
  rw [if_neg (show ¬ batch_size < 0 by omega)] at hrun
  have hst := Option.some.inj hrun
  subst hst
  have hacc := run_batches_accounting md5 embedOk addOk repo
    (batches_of batch_size.toNat sections) (init_state store0)
  have hsum := batches_sum_length batch_size.toNat (by omega) sections
  rw [hsum] at hacc
  have hi : (init_state store0).indexed = 0 := rfl
  have hs2 : (init_state store0).skipped = 0 := rfl
  have he : (init_state store0).errors = 0 := rfl
  rw [hi, hs2, he] at hacc
  constructor
  · have := hacc.1
    omega
  · exact hacc.2 (le_refl 0)

def w10sec : SectionDict :=
  { name := String.toList "n"
    type := String.toList "t"
    file_path := String.toList "p"
    start_line := 1
    end_line := 2
    code := String.toList "c"
    pattern_type := String.toList "k"
    context := String.toList "x" }

def w10st : RunState :=
  { indexed := 1
    skipped := 0
    errors := 0
    existing := [String.toList "h"]
    seen := [String.toList "h"]
    store := [String.toList "h"]
    embedCalls := 1 }

/-- Witness for the amended C10 at a concrete one-section run. -/
theorem c10_count_partition_witness :
    w10st.indexed + w10st.skipped + w10st.errors = (([w10sec] : List SectionDict).length : Int) ∧
    0 ≤ w10st.indexed :=
  c10_count_partition (fun _ => String.toList "h") (fun _ => true) (fun _ => true)
    (String.toList "o/r") [w10sec] 100 [] (by decide) w10st (by decide)

theorem prepare_batch_skip_all (md5 : Str → Str) (repo : Str) (existing : List Str) :
    ∀ (batch : List SectionDict) (st : PrepState),
    (∀ s ∈ batch, section_id md5 repo s ∈ existing) →
    (prepare_batch md5 repo existing batch st).skipped = st.skipped + (batch.length : Int) ∧
    (prepare_batch md5 repo existing batch st).seen = st.seen ∧
    (prepare_batch md5 repo existing batch st).batchData = st.batchData := by
  intro batch
  induction batch with
  | nil =>
    intro st _
    refine ⟨?_, rfl, rfl⟩
    simp [prepare_batch]
  | cons s rest ih =>
    intro st h
    have hstep : prep_step md5 repo existing st s = { st with skipped := st.skipped + 1 } := by
      simp only [prep_step]
      rw [if_pos (Or.inl (h s (by simp)))]
    simp only [prepare_batch, hstep]
    obtain ⟨h1, h2, h3⟩ := ih { st with skipped := st.skipped + 1 }
      (fun x hx => h x (by simp [hx]))
    refine ⟨?_, h2, h3⟩
    rw [h1]
    simp only [List.length_cons]
    push_cast
    ring

theorem process_batch_skip_all (md5 : Str → Str) (embedOk : Str → Bool)
    (addOk : List Str → Bool) (repo : Str) (st : RunState) (batch : List SectionDict)
    (h : ∀ s ∈ batch, section_id md5 repo s ∈ st.existing) :
    (process_batch md5 embedOk addOk repo st batch).indexed = st.indexed ∧
    (process_batch md5 embedOk addOk repo st batch).skipped = st.skipped + (batch.length : Int) ∧
    (process_batch md5 embedOk addOk repo st batch).errors = st.errors ∧
    (process_batch md5 embedOk addOk repo st batch).embedCalls = st.embedCalls ∧
    (process_batch md5 embedOk addOk repo st batch).store = st.store ∧
    (process_batch md5 embedOk addOk repo st batch).existing = st.existing ∧
    (process_batch md5 embedOk addOk repo st batch).seen = st.seen := by
  obtain ⟨h1, h2, h3⟩ := prepare_batch_skip_all md5 repo st.existing batch
    { skipped := st.skipped, seen := st.seen, batchData := [] } h
  unfold process_batch
  rw [if_pos h3]
  exact ⟨rfl, h1, rfl, rfl, rfl, rfl, h2⟩

theorem run_batches_skip_all (md5 : Str → Str) (embedOk : Str → Bool)
    (addOk : List Str → Bool) (repo : Str) :
    ∀ (B : List (List SectionDict)) (st : RunState),
    (∀ b ∈ B, ∀ s ∈ b, section_id md5 repo s ∈ st.existing) →
    (run_batches md5 embedOk addOk repo B st).indexed = st.indexed ∧
    (run_batches md5 embedOk addOk repo B st).skipped =
      st.skipped + (((B.map List.length).sum : Nat) : Int) ∧
    (run_batches md5 embedOk addOk repo B st).errors = st.errors ∧
    (run_batches md5 embedOk addOk repo B st).embedCalls = st.embedCalls ∧
    (run_batches md5 embedOk addOk repo B st).store = st.store ∧
    (run_batches md5 embedOk addOk repo B st).existing = st.existing := by
  intro B
  induction B with
  | nil =>
    intro st _
    refine ⟨rfl, ?_, rfl, rfl, rfl, rfl⟩
    simp [run_batches]
  | cons b bs ih =>
    intro st h
    simp only [run_batches]
    obtain ⟨p1, p2, p3, p4, p5, p6, p7⟩ := process_batch_skip_all md5 embedOk addOk repo st b
      (h b (by simp))
    obtain ⟨q1, q2, q3, q4, q5, q6⟩ := ih (process_batch md5 embedOk addOk repo st b)
      (fun b2 hb2 s hs => by rw [p6]; exact h b2 (by simp [hb2]) s hs)
    refine ⟨by rw [q1, p1], ?_, by rw [q3, p3], by rw [q4, p4], by rw [q5, p5], by rw [q6, p6]⟩
    rw [q2, p2]
    simp only [List.map_cons, List.sum_cons]
    push_cast
    ring

theorem prepare_batch_exists (md5 : Str → Str) (repo : Str) (existing : List Str) :
    ∀ (batch : List SectionDict) (st : PrepState),
    ∃ new : List PrepItem,
      (prepare_batch md5 repo existing batch st).batchData = st.batchData ++ new ∧
      (prepare_batch md5 repo existing batch st).seen = st.seen ++ new.map PrepItem.id ∧
      (∀ s ∈ batch, section_id md5 repo s ∈ existing ∨
        section_id md5 repo s ∈ (prepare_batch md5 repo existing batch st).seen) := by
  intro batch
  induction batch with
  | nil =>
    intro st
    exact ⟨[], by simp [prepare_batch], by simp [prepare_batch], by simp⟩
  | cons s rest ih =>
    intro st
    by_cases h : section_id md5 repo s ∈ existing ∨ section_id md5 repo s ∈ st.seen
    · have hstep : prep_step md5 repo existing st s = { st with skipped := st.skipped + 1 } := by
        simp only [prep_step]
        rw [if_pos h]
      obtain ⟨new, h1, h2, h3⟩ := ih { st with skipped := st.skipped + 1 }
      refine ⟨new, ?_, ?_, ?_⟩
      · simp only [prepare_batch, hstep]
        exact h1
      · simp only [prepare_batch, hstep]
        exact h2
      · intro x hx
        rcases List.mem_cons.mp hx with rfl | hx2
        · rcases h with h | h
          · exact Or.inl h
          · refine Or.inr ?_
            simp only [prepare_batch, hstep, h2]
            exact List.mem_append_left _ h
        · have := h3 x hx2
          simpa only [prepare_batch, hstep] using this
    · have hstep : prep_step md5 repo existing st s =
          { skipped := st.skipped
            seen := st.seen ++ [section_id md5 repo s]
            batchData := st.batchData ++
              [{ id := section_id md5 repo s
                 context := build_context s
                 meta := prep_meta repo s
                 document := s.code.take 4000 }] } := by
        simp only [prep_step]
        rw [if_neg h]
      set item : PrepItem :=
        { id := section_id md5 repo s
          context := build_context s
          meta := prep_meta repo s
          document := s.code.take 4000 } with hitem
      obtain ⟨new, h1, h2, h3⟩ := ih
        { skipped := st.skipped
          seen := st.seen ++ [section_id md5 repo s]
          batchData := st.batchData ++ [item] }
      refine ⟨item :: new, ?_, ?_, ?_⟩
      · simp only [prepare_batch, hstep]
        rw [h1]
        simp
      · simp only [prepare_batch, hstep]
        rw [h2]
        simp
      · intro x hx
        rcases List.mem_cons.mp hx with rfl | hx2
        · refine Or.inr ?_
          simp only [prepare_batch, hstep, h2]
          refine List.mem_append_left _ ?_
          exact List.mem_append_right _ (by simp)
        · have := h3 x hx2
          simpa only [prepare_batch, hstep] using this

theorem process_batch_cover (md5 : Str → Str) (repo : Str) (st : RunState)
    (batch : List SectionDict)
    (hseen : ∀ x ∈ st.seen, x ∈ st.existing)
    (hes : st.existing = st.store) :
    (∀ s ∈ batch, section_id md5 repo s ∈
      (process_batch md5 (fun _ => true) (fun _ => true) repo st batch).existing) ∧
    (∀ x ∈ st.existing, x ∈
      (process_batch md5 (fun _ => true) (fun _ => true) repo st batch).existing) ∧
    (∀ x ∈ (process_batch md5 (fun _ => true) (fun _ => true) repo st batch).seen,
      x ∈ (process_batch md5 (fun _ => true) (fun _ => true) repo st batch).existing) ∧
    (process_batch md5 (fun _ => true) (fun _ => true) repo st batch).existing =
      (process_batch md5 (fun _ => true) (fun _ => true) repo st batch).store := by
  obtain ⟨new, h1, h2, h3⟩ := prepare_batch_exists md5 repo st.existing batch
    { skipped := st.skipped, seen := st.seen, batchData := [] }
  simp only [List.nil_append] at h1
  by_cases hnew : new = []
  · have hbd : (prepare_batch md5 repo st.existing batch
        { skipped := st.skipped, seen := st.seen, batchData := [] }).batchData = [] := by
      rw [h1, hnew]
    have hres : process_batch md5 (fun _ => true) (fun _ => true) repo st batch =
        { st with
          skipped := (prepare_batch md5 repo st.existing batch
            { skipped := st.skipped, seen := st.seen, batchData := [] }).skipped
          seen := (prepare_batch md5 repo st.existing batch
            { skipped := st.skipped, seen := st.seen, batchData := [] }).seen } := by
      simp only [process_batch]
      rw [if_pos hbd]
    rw [hres]
    refine ⟨?_, fun x hx => hx, ?_, hes⟩
    · intro s hs
      rcases h3 s hs with h | h
      · exact h
      · rw [h2, hnew] at h
        simp only [List.map_nil, List.append_nil] at h
        exact hseen _ h
    · intro x hx
      have hx2 : x ∈ (prepare_batch md5 repo st.existing batch
          { skipped := st.skipped, seen := st.seen, batchData := [] }).seen := hx
      rw [h2, hnew] at hx2
      simp only [List.map_nil, List.append_nil] at hx2
      exact hseen x hx2
  · have hbd : (prepare_batch md5 repo st.existing batch
        { skipped := st.skipped, seen := st.seen, batchData := [] }).batchData ≠ [] := by
      rw [h1]
      exact hnew
    have hsucc : batch_success (fun _ => true)
        (prepare_batch md5 repo st.existing batch
          { skipped := st.skipped, seen := st.seen, batchData := [] }).batchData =
        (prepare_batch md5 repo st.existing batch
          { skipped := st.skipped, seen := st.seen, batchData := [] }).batchData := by
      simp [batch_success]
    have hidsne : (batch_success (fun _ => true)
        (prepare_batch md5 repo st.existing batch
          { skipped := st.skipped, seen := st.seen, batchData := [] }).batchData).map
          PrepItem.id ≠ [] := by
      rw [hsucc, h1]
      intro hc
      exact hnew (List.map_eq_nil_iff.mp hc)
    have hres : process_batch md5 (fun _ => true) (fun _ => true) repo st batch =
        { indexed := st.indexed + ((batch_success (fun _ => true)
            (prepare_batch md5 repo st.existing batch
              { skipped := st.skipped, seen := st.seen, batchData := [] }).batchData).map
              PrepItem.id).length
          skipped := (prepare_batch md5 repo st.existing batch
            { skipped := st.skipped, seen := st.seen, batchData := [] }).skipped
          errors := st.errors + batch_fail_count (fun _ => true)
            (prepare_batch md5 repo st.existing batch
              { skipped := st.skipped, seen := st.seen, batchData := [] }).batchData
          existing := st.existing ++ ((batch_success (fun _ => true)
            (prepare_batch md5 repo st.existing batch
              { skipped := st.skipped, seen := st.seen, batchData := [] }).batchData).map
              PrepItem.id)
          seen := (prepare_batch md5 repo st.existing batch
            { skipped := st.skipped, seen := st.seen, batchData := [] }).seen
          store := st.store ++ ((batch_success (fun _ => true)
            (prepare_batch md5 repo st.existing batch
              { skipped := st.skipped, seen := st.seen, batchData := [] }).batchData).map
              PrepItem.id)
          embedCalls := st.embedCalls + (prepare_batch md5 repo st.existing batch
            { skipped := st.skipped, seen := st.seen, batchData := [] }).batchData.length } := by
      simp only [process_batch]
      rw [if_neg hbd, if_neg hidsne, if_pos trivial]
    rw [hres]
    have hids : (batch_success (fun _ => true)
        (prepare_batch md5 repo st.existing batch
          { skipped := st.skipped, seen := st.seen, batchData := [] }).batchData).map
          PrepItem.id = new.map PrepItem.id := by
      rw [hsucc, h1]
    refine ⟨?_, ?_, ?_, ?_⟩
    · intro s hs
      rcases h3 s hs with h | h
      · exact List.mem_append_left _ h
      · rw [h2] at h
        rcases List.mem_append.mp h with h | h
        · exact List.mem_append_left _ (hseen _ h)
        · refine List.mem_append_right _ ?_
          rw [hids]
          exact h
    · intro x hx
      exact List.mem_append_left _ hx
    · intro x hx
      have hx2 : x ∈ (prepare_batch md5 repo st.existing batch
          { skipped := st.skipped, seen := st.seen, batchData := [] }).seen := hx
      rw [h2] at hx2
      rcases List.mem_append.mp hx2 with h | h
      · exact List.mem_append_left _ (hseen _ h)
      · refine List.mem_append_right _ ?_
        rw [hids]
        exact h
    · show st.existing ++ _ = st.store ++ _
      rw [hes]

theorem run_batches_cover (md5 : Str → Str) (repo : Str) :
    ∀ (B : List (List SectionDict)) (st : RunState),
    (∀ x ∈ st.seen, x ∈ st.existing) →
    st.existing = st.store →
    (∀ b ∈ B, ∀ s ∈ b, section_id md5 repo s ∈
      (run_batches md5 (fun _ => true) (fun _ => true) repo B st).existing) ∧
    (∀ x ∈ st.existing, x ∈
      (run_batches md5 (fun _ => true) (fun _ => true) repo B st).existing) ∧
    (∀ x ∈ (run_batches md5 (fun _ => true) (fun _ => true) repo B st).seen,
      x ∈ (run_batches md5 (fun _ => true) (fun _ => true) repo B st).existing) ∧
    (run_batches md5 (fun _ => true) (fun _ => true) repo B st).existing =
      (run_batches md5 (fun _ => true) (fun _ => true) repo B st).store := by
  intro B
  induction B with
  | nil =>
    intro st h1 h2
    exact ⟨by simp, fun x hx => hx, h1, h2⟩
  | cons b bs ih =>
    intro st h1 h2
    simp only [run_batches]
    obtain ⟨c1, c2, c3, c4⟩ := process_batch_cover md5 repo st b h1 h2
    obtain ⟨d1, d2, d3, d4⟩ := ih
      (process_batch md5 (fun _ => true) (fun _ => true) repo st b) c3 c4
    refine ⟨?_, fun x hx => d2 x (c2 x hx), d3, d4⟩
    intro b2 hb2 s hs
    rcases List.mem_cons.mp hb2 with rfl | hb3
    · exact d2 _ (c1 s hs)
    · exact d1 b2 hb3 s hs

/-- C1: indexing is idempotent with full duplicate-skip.  After one
successful indexing run (every embedding call succeeds, every store add
succeeds), running `index_code_sections` again on the identical section
sequence for the same repository — with any embedding and store behaviour in
the second run — issues zero embedding calls and returns `indexed = 0`,
`skipped = N` and `errors = 0`: every duplicate is detected by its key
before any embedding is attempted, and the store is unchanged. -/
theorem c1_idempotent_indexing (md5 : Str → Str) (repo : Str)
    (sections : List SectionDict) (store0 : List Str) (bs1 bs2 : Int)
    (h1 : 0 < bs1) (h2 : 0 < bs2)
    (embedOk2 : Str → Bool) (addOk2 : List Str → Bool) (st1 st2 : RunState)
    (hrun1 : index_code_sections md5 (fun _ => true) (fun _ => true) repo
      sections bs1 store0 = some st1)
    (hrun2 : index_code_sections md5 embedOk2 addOk2 repo sections bs2
      st1.store = some st2) :
    st2.indexed = 0 ∧ st2.skipped = (sections.length : Int) ∧ st2.errors = 0 ∧
    st2.embedCalls = 0 ∧ st2.store = st1.store := by
  unfold index_code_sections at hrun1 hrun2
  rw [if_neg (show ¬ bs1 = 0 by omega), if_neg (show ¬ bs1 < 0 by omega)] at hrun1
  rw [if_neg (show ¬ bs2 = 0 by omega), if_neg (show ¬ bs2 < 0 by omega)] at hrun2
  have h1eq := Option.some.inj hrun1
  have h2eq := Option.some.inj hrun2
  obtain ⟨cov1, _, _, cov4⟩ := run_batches_cover md5 repo
    (batches_of bs1.toNat sections) (init_state store0)
    (by intro x hx; exact absurd hx (List.not_mem_nil x)) rfl
  rw [h1eq] at cov1 cov4
  have hmemsec : ∀ s ∈ sections, section_id md5 repo s ∈ st1.store := by
    intro s hs
    obtain ⟨b, hb, hsb⟩ := mem_batches bs1.toNat (by omega) sections s hs
    exact cov4 ▸ cov1 b hb s hsb
  obtain ⟨k1, k2, k3, k4, k5, k6⟩ := run_batches_skip_all md5 embedOk2 addOk2 repo
    (batches_of bs2.toNat sections) (init_state st1.store)
    (by
      intro b hb s hs
      exact hmemsec s (mem_of_mem_batches bs2.toNat sections b hb s hs))
  rw [h2eq] at k1 k2 k3 k4 k5
  have hsum := batches_sum_length bs2.toNat (by omega) sections
  rw [hsum] at k2
  refine ⟨?_, ?_, ?_, ?_, ?_⟩
  · rw [k1]
    rfl
  · rw [k2]
    show (0 : Int) + (sections.length : Int) = (sections.length : Int)
    ring
  · rw [k3]
    rfl
  · rw [k4]
    rfl
  · rw [k5]
    rfl

def w1sec : SectionDict :=
  { name := String.toList "n"
    type := String.toList "t"
    file_path := String.toList "p"
    start_line := 1
    end_line := 2
    code := String.toList "c"
    pattern_type := String.toList "k"
    context := String.toList "x" }

def w1st1 : RunState :=
  { indexed := 1
    skipped := 0
    errors := 0
    existing := [String.toList "h"]
    seen := [String.toList "h"]
    store := [String.toList "h"]
    embedCalls := 1 }

def w1st2 : RunState :=
  { indexed := 0
    skipped := 1
    errors := 0
    existing := [String.toList "h"]
    seen := []
    store := [String.toList "h"]
    embedCalls := 0 }

/-- Witness for C1: a concrete one-section run followed by a re-run whose
oracle fails every embedding and every store call, and still skips
everything with zero embedding calls. -/
theorem c1_idempotent_indexing_witness :
    w1st2.indexed = 0 ∧ w1st2.skipped = (([w1sec] : List SectionDict).length : Int) ∧
    w1st2.errors = 0 ∧ w1st2.embedCalls = 0 ∧ w1st2.store = w1st1.store :=
  c1_idempotent_indexing (fun _ => String.toList "h") (String.toList "o/r")
    [w1sec] [] 100 100 (by decide) (by decide) (fun _ => false) (fun _ => false)
    w1st1 w1st2 (by decide) (by decide)

/-- C8: batch-level store-failure accounting.  When the store `add` call for
a batch fails, the indexed count is corrected back to its value before the
batch (none of the batch is counted as indexed), every record prepared for
the batch — embedding failures and would-be upserts alike — is counted as an
error, and the collection contents are unchanged, so a failed batch is
reported rather than silently partially lost. -/
theorem c8_store_failure (md5 : Str → Str) (embedOk : Str → Bool)
    (addOk : List Str → Bool) (repo : Str) (st : RunState) (batch : List SectionDict)
    (hids : (batch_success embedOk (prepare_batch md5 repo st.existing batch
      { skipped := st.skipped, seen := st.seen, batchData := [] }).batchData).map
      PrepItem.id ≠ [])
    (hfail : addOk ((batch_success embedOk (prepare_batch md5 repo st.existing batch
      { skipped := st.skipped, seen := st.seen, batchData := [] }).batchData).map
      PrepItem.id) = false) :
    (process_batch md5 embedOk addOk repo st batch).indexed = st.indexed ∧
    (process_batch md5 embedOk addOk repo st batch).errors = st.errors +
      ((prepare_batch md5 repo st.existing batch
        { skipped := st.skipped, seen := st.seen, batchData := [] }).batchData.length : Int) ∧
    (process_batch md5 embedOk addOk repo st batch).store = st.store := by
  have hbd : (prepare_batch md5 repo st.existing batch
      { skipped := st.skipped, seen := st.seen, batchData := [] }).batchData ≠ [] := by
    intro h
    apply hids
    rw [h]
    rfl
  have hsplit := filter_split_length (fun it => embedOk it.context)
    (prepare_batch md5 repo st.existing batch
      { skipped := st.skipped, seen := st.seen, batchData := [] }).batchData
  have hlen : ((batch_success embedOk (prepare_batch md5 repo st.existing batch
      { skipped := st.skipped, seen := st.seen, batchData := [] }).batchData).map
      PrepItem.id).length =
      ((prepare_batch md5 repo st.existing batch
        { skipped := st.skipped, seen := st.seen, batchData := [] }).batchData.filter
        (fun it => embedOk it.context)).length := by
    rw [List.length_map]
    rfl
  simp only [process_batch]
  rw [if_neg hbd, if_neg hids, if_neg (by rw [hfail]; exact Bool.false_ne_true)]
  refine ⟨?_, ?_, rfl⟩
  · show st.indexed + _ - _ = st.indexed
    ring
  · show st.errors + (batch_fail_count embedOk _ : Int) + _ = _
    simp only [batch_fail_count]
    rw [hlen]
    omega

def w8sec : SectionDict :=
  { name := String.toList "n"
    type := String.toList "t"
    file_path := String.toList "p"
    start_line := 1
    end_line := 2
    code := String.toList "c"
    pattern_type := String.toList "k"
    context := String.toList "x" }

/-- Witness for C8 at a concrete one-section batch whose store call fails. -/
theorem c8_store_failure_witness :
    (process_batch (fun _ => String.toList "h") (fun _ => true) (fun _ => false)
      (String.toList "o/r") (init_state []) [w8sec]).indexed = (init_state []).indexed ∧
    (process_batch (fun _ => String.toList "h") (fun _ => true) (fun _ => false)
      (String.toList "o/r") (init_state []) [w8sec]).errors = (init_state []).errors +
      ((prepare_batch (fun _ => String.toList "h") (String.toList "o/r")
        (init_state []).existing [w8sec]
        { skipped := (init_state []).skipped, seen := (init_state []).seen,
          batchData := [] }).batchData.length : Int) ∧
    (process_batch (fun _ => String.toList "h") (fun _ => true) (fun _ => false)
      (String.toList "o/r") (init_state []) [w8sec]).store = (init_state []).store :=
  c8_store_failure (fun _ => String.toList "h") (fun _ => true) (fun _ => false)
    (String.toList "o/r") (init_state []) [w8sec] (by decide) (by decide)

/-- One nearest-neighbour hit returned by the vector store for a query:
key, cosine distance, metadata and stored document (`M` is the shape of the
metadata dictionaries, irrelevant to the verified properties). -/
structure SearchRow (M : Type) where
  id : Str
  distance : ℚ
  meta : M
  document : Str

/-- One formatted result of `search_sections`: key, rounded similarity
score, metadata and the stored document under the `code` key. -/
structure SearchResult (M : Type) where
  id : Str
  score : ℚ
  meta : M
  code : Str

/-- Model of the Python `round(score, 4)` (reals modelled as rationals). -/
def round4 (x : ℚ) : ℚ := ((round (x * 10000) : ℤ) : ℚ) / 10000

/-- Model of the result-formatting loop of `EmbeddingSystem.search_sections`:
for each store hit in order, the similarity score is `1 - distance`; a hit
whose score is below `min_score` is dropped (`continue`), the others are
emitted with the rounded score. -/
def search_format {M : Type} (min_score : ℚ) : List (SearchRow M) → List (SearchResult M)
  | [] => []
  | r :: rest =>
    let score := 1 - r.distance
    if score < min_score then search_format min_score rest
    else { id := r.id, score := round4 score, meta := r.meta, code := r.document } ::
      search_format min_score rest

/-- Specification-side formatting: keep, in store order, exactly the hits
with `min_score ≤ 1 - distance`, and map each to its rounded score. -/
def search_format_spec {M : Type} (min_score : ℚ) (rows : List (SearchRow M)) :
    List (SearchResult M) :=
  (rows.filter (fun r => decide (min_score ≤ 1 - r.distance))).map
    (fun r => { id := r.id, score := round4 (1 - r.distance), meta := r.meta,
                code := r.document })

theorem round_mono_q {x y : ℚ} (h : x ≤ y) : round x ≤ round y := by
  rw [round_eq, round_eq]
  exact Int.floor_le_floor (by linarith)

theorem round4_bounds {x : ℚ} (h0 : 0 ≤ x) (h1 : x ≤ 1) :
    0 ≤ round4 x ∧ round4 x ≤ 1 := by
  have hl : round (0 : ℚ) ≤ round (x * 10000) :=
    round_mono_q (by nlinarith)
  have hr : round (x * 10000) ≤ round ((10000 : ℤ) : ℚ) :=
    round_mono_q (by push_cast; nlinarith)
  rw [round_zero] at hl
  rw [round_intCast] at hr
  unfold round4
  constructor
  · apply div_nonneg _ (by norm_num : (0 : ℚ) ≤ 10000)
    exact_mod_cast hl
  · rw [div_le_one (by norm_num : (0 : ℚ) < 10000)]
    exact_mod_cast hr

theorem search_format_eq_spec {M : Type} (min_score : ℚ) (rows : List (SearchRow M)) :
    search_format min_score rows = search_format_spec min_score rows := by
  induction rows with
  | nil => rfl
  | cons r rest ih =>
    simp only [search_format, search_format_spec, List.filter_cons]
    by_cases h : 1 - r.distance < min_score
    · rw [if_pos h]
      have hdec : decide (min_score ≤ 1 - r.distance) = false :=
        decide_eq_false (not_le.mpr h)
      rw [hdec, if_neg (by simp : ¬ (false = true))]
      rw [ih]
      rfl
    · rw [if_neg h]
      have hdec : decide (min_score ≤ 1 - r.distance) = true :=
        decide_eq_true (not_lt.mp h)
      rw [hdec, if_pos rfl, List.map_cons]
      rw [ih]
      rfl

theorem search_format_bounds {M : Type} (min_score : ℚ) (rows : List (SearchRow M))
    (hd : ∀ r ∈ rows, 0 ≤ r.distance) (hm : 0 ≤ min_score) :
    ∀ res ∈ search_format min_score rows, 0 ≤ res.score ∧ res.score ≤ 1 := by
  induction rows with
  | nil => intro res h; exact absurd h (List.not_mem_nil res)
  | cons r rest ih =>
    intro res hres
    simp only [search_format] at hres
    by_cases h : 1 - r.distance < min_score
    · rw [if_pos h] at hres
      exact ih (fun x hx => hd x (by simp [hx])) res hres
    · rw [if_neg h] at hres
      rcases List.mem_cons.mp hres with rfl | h2
      · have hd0 : 0 ≤ r.distance := hd r (by simp)
        have hle : min_score ≤ 1 - r.distance := not_lt.mp h
        exact round4_bounds (by linarith) (by linarith)
      · exact ih (fun x hx => hd x (by simp [hx])) res h2

/-- C5: for every search call, the formatted results are exactly the store
hits with `1 - distance` at least `min_score`, in store-returned order, each
carrying `round(1 - distance, 4)` as its score; and when the store distances
are non-negative (cosine distances are) and `min_score ≥ 0`, every returned
score lies in `[0, 1]`. -/
theorem c5_search_scores {M : Type} (rows : List (SearchRow M)) (min_score : ℚ)
    (hd : ∀ r ∈ rows, 0 ≤ r.distance) (hm : 0 ≤ min_score) :
    search_format min_score rows = search_format_spec min_score rows ∧
    ∀ res ∈ search_format min_score rows, 0 ≤ res.score ∧ res.score ≤ 1 :=
  ⟨search_format_eq_spec min_score rows, search_format_bounds min_score rows hd hm⟩

def w5rows : List (SearchRow Unit) :=
  [{ id := String.toList "a", distance := 0, meta := (), document := String.toList "d" },
   { id := String.toList "b", distance := 2, meta := (), document := String.toList "e" }]

/-- Witness for C5 at two concrete store hits, one below the threshold. -/
theorem c5_search_scores_witness :
    search_format 0 w5rows = search_format_spec 0 w5rows ∧
    ∀ res ∈ search_format 0 w5rows, 0 ≤ res.score ∧ res.score ≤ 1 :=
  c5_search_scores w5rows 0 (by decide) (by decide)
